import Mathlib

/-!
# Verification of the hashfill recursive geohash polygon filler

A shallow embedding of `hashfill.go` (package `hashfill`): the recursive
variable-precision search `computeVariableHashes`, the fixed-precision
expansion `extendHashToMaxPrecision`, and the `Fill` orchestration, together
with theorems settling the specification's claims about them.

Modelling conventions:
* A geohash cell (a Go `string` over the 32-symbol base32 alphabet) is a
  `List Char`; Go's `hash + next` (appending a one-character alphabet string)
  is `hash ++ [next]`.
* Go's `(result, error)` return pairs, used idiomatically (`return nil, err`
  on every failure path), are `Except`; the polygon and the errors raised by
  the two predicate collaborators are opaque type parameters `σ` and `ε`.
* Go `int` values (`maxPrecision`, `maxHashes`, `len(...)` comparisons) are
  `Int`, with list lengths cast from `Nat`.
* The Go recursion is not structurally terminating (for `len(hash)` above
  `maxPrecision` it recurses forever), so every recursive function takes a
  fuel argument; `none` models the computation not returning within the
  fuel, and `some r` is the Go result. Fuel adequacy under the intended
  precondition is proved below (`computeVariableHashes_isSome`).
-/

/-- The geohash base32 alphabet, in order (source: `geohashBase32Alphabet`,
a list of 32 one-character strings). -/
def geohashBase32Alphabet : List Char :=
  ['0', '1', '2', '3', '4', '5', '6', '7',
   '8', '9', 'b', 'c', 'd', 'e', 'f', 'g',
   'h', 'j', 'k', 'm', 'n', 'p', 'q', 'r',
   's', 't', 'u', 'v', 'w', 'x', 'y', 'z']

/-- Fill mode (source: `FillMode`, with constants `FillIntersects` and
`FillContains`). -/
inductive FillMode where
  | intersects
  | contains
deriving DecidableEq, Repr

/-- Errors a fill computation can surface: either an error value returned by
a predicate collaborator, propagated unchanged (`pred e`), or the
self-generated output-cap error (source: `fmt.Errorf("hash limit at %d, but
already have: %d", maxHashes, len(...))`), carrying the cap and the count at
the point of failure. -/
inductive HashfillError (ε : Type) where
  | pred (e : ε)
  | hashLimit (limit : Int) (count : Int)
deriving DecidableEq, Repr

/-- The filler configuration (source: `RecursiveFiller`): maximum precision,
fixed-precision flag, and the two geometric predicate collaborators
(`Container.Contains` and `Intersector.Intersects`), each returning
`(bool, error)` on a polygon `σ` and a cell string. -/
structure RecursiveFiller (σ ε : Type) where
  maxPrecision : Int
  fixedPrecision : Bool
  container : σ → List Char → Except ε Bool
  intersector : σ → List Char → Except ε Bool

/-- The child-accumulation loop shared verbatim by the recursion of
`computeVariableHashes` (source lines 165-178) and of
`extendHashToMaxPrecision` (source lines 118-131): iterate the alphabet in
order, recurse on `hash ++ [next]`, propagate any error, fail with the cap
error if the child's own output exceeds `maxHashes`, append, and fail with
the cap error if the accumulated output exceeds `maxHashes`. -/
def hashesLoop {ε : Type} (maxHashes : Int)
    (recurse : List Char → Option (Except (HashfillError ε) (List (List Char))))
    (hash : List Char) :
    List Char → List (List Char) → Option (Except (HashfillError ε) (List (List Char)))
  | [], hashes => some (Except.ok hashes)
  | next :: rest, hashes =>
    match recurse (hash ++ [next]) with
    | none => none
    | some (Except.error e) => some (Except.error e)
    | some (Except.ok out) =>
      if (out.length : Int) > maxHashes then
        some (Except.error (HashfillError.hashLimit maxHashes (out.length : Int)))
      else
        if ((hashes ++ out).length : Int) > maxHashes then
          some (Except.error (HashfillError.hashLimit maxHashes ((hashes ++ out).length : Int)))
        else
          hashesLoop maxHashes recurse hash rest (hashes ++ out)

/-- The variable-precision search (source: `computeVariableHashes`):
evaluate `Contains`; on true accept `[hash]`; otherwise evaluate
`Intersects`; on false reject (empty list); otherwise, at maximum precision
accept under `FillIntersects` and reject under `FillContains`; otherwise
recurse into the 32 children via `hashesLoop`. Predicate errors are
propagated unchanged as `HashfillError.pred`. -/
def computeVariableHashes {σ ε : Type} (f : RecursiveFiller σ ε) (fence : σ)
    (mode : FillMode) (maxHashes : Int) (fuel : Nat) (hash : List Char) :
    Option (Except (HashfillError ε) (List (List Char))) :=
  match fuel with
  | 0 => none
  | fuel' + 1 =>
    match f.container fence hash with
    | Except.error e => some (Except.error (HashfillError.pred e))
    | Except.ok true => some (Except.ok [hash])
    | Except.ok false =>
      match f.intersector fence hash with
      | Except.error e => some (Except.error (HashfillError.pred e))
      | Except.ok false => some (Except.ok [])
      | Except.ok true =>
        if (hash.length : Int) = f.maxPrecision then
          if mode = FillMode.intersects then some (Except.ok [hash])
          else some (Except.ok [])
        else
          hashesLoop maxHashes
            (fun h => computeVariableHashes f fence mode maxHashes fuel' h) hash
            geohashBase32Alphabet []

/-- The fixed-precision expansion (source: `extendHashToMaxPrecision`): if
the cell already has the maximum precision return it unchanged, otherwise
recurse into the 32 children via the same accumulation loop. It reads only
the configuration's `maxPrecision` and invokes no geometric predicate, so it
is defined on the precision alone. -/
def extendHashToMaxPrecision {ε : Type} (maxPrecision maxHashes : Int) (fuel : Nat)
    (hash : List Char) : Option (Except (HashfillError ε) (List (List Char))) :=
  match fuel with
  | 0 => none
  | fuel' + 1 =>
    if (hash.length : Int) = maxPrecision then some (Except.ok [hash])
    else
      hashesLoop maxHashes
        (fun h => extendHashToMaxPrecision maxPrecision maxHashes fuel' h) hash
        geohashBase32Alphabet []

/-- The expansion loop of `Fill` (source lines 100-109): for each
variable-length hash in order, extend it, propagate any error, append the
extension, and fail with the cap error if the accumulated output exceeds
`maxHashes`. -/
def fillExtendLoop {ε : Type} (maxPrecision maxHashes : Int) (fuel : Nat) :
    List (List Char) → List (List Char) →
    Option (Except (HashfillError ε) (List (List Char)))
  | [], out => some (Except.ok out)
  | hash :: rest, out =>
    match extendHashToMaxPrecision maxPrecision maxHashes fuel hash with
    | none => none
    | some (Except.error e) => some (Except.error e)
    | some (Except.ok extended) =>
      if ((out ++ extended).length : Int) > maxHashes then
        some (Except.error (HashfillError.hashLimit maxHashes ((out ++ extended).length : Int)))
      else
        fillExtendLoop maxPrecision maxHashes fuel rest (out ++ extended)

/-- The orchestration (source: `Fill`): run the variable-precision search
from the empty root cell, propagating any failure; return its result
directly unless fixed precision is requested; otherwise run the
fixed-precision pre-check (source lines 96-99: the freshly made accumulator
`out` is empty, so the check compares `0` against `maxHashes`) and then the
expansion loop. -/
def Fill {σ ε : Type} (f : RecursiveFiller σ ε) (fence : σ) (mode : FillMode)
    (maxHashes : Int) (fuel : Nat) :
    Option (Except (HashfillError ε) (List (List Char))) :=
  match computeVariableHashes f fence mode maxHashes fuel [] with
  | none => none
  | some (Except.error e) => some (Except.error e)
  | some (Except.ok hashes) =>
    if f.fixedPrecision = false then some (Except.ok hashes)
    else
      if (0 : Int) > maxHashes then
        some (Except.error (HashfillError.hashLimit maxHashes 0))
      else
        fillExtendLoop f.maxPrecision maxHashes fuel hashes []

/-- Modelled from the spec's design note for the refinement claim: `Fill`
with the fixed-precision pre-check removed ("treat it as a no-op ... rely on
the per-iteration checks inside the expansion loop instead"); identical to
`Fill` except that the comparison of the empty accumulator's length against
the cap before the loop is gone. -/
def FillNoPre {σ ε : Type} (f : RecursiveFiller σ ε) (fence : σ) (mode : FillMode)
    (maxHashes : Int) (fuel : Nat) :
    Option (Except (HashfillError ε) (List (List Char))) :=
  match computeVariableHashes f fence mode maxHashes fuel [] with
  | none => none
  | some (Except.error e) => some (Except.error e)
  | some (Except.ok hashes) =>
    if f.fixedPrecision = false then some (Except.ok hashes)
    else fillExtendLoop f.maxPrecision maxHashes fuel hashes []

/-- The fate of a cell visited by the variable-precision search: accepted
into the output, rejected (neither accepted nor subdivided), or subdivided
into its 32 children. -/
inductive Decision where
  | accepted
  | rejected
  | subdivided
deriving DecidableEq, Repr

/-- The accumulation loop of `tracedVariableHashes`: exactly `hashesLoop`
(same cap checks on the same hash counts) but also threading the
concatenated decision traces of the children. -/
def tracedLoop {ε : Type} (maxHashes : Int)
    (recurse : List Char →
      Option (Except (HashfillError ε) (List (List Char) × List (List Char × Decision))))
    (hash : List Char) :
    List Char → List (List Char) → List (List Char × Decision) →
    Option (Except (HashfillError ε) (List (List Char) × List (List Char × Decision)))
  | [], hashes, tr => some (Except.ok (hashes, tr))
  | next :: rest, hashes, tr =>
    match recurse (hash ++ [next]) with
    | none => none
    | some (Except.error e) => some (Except.error e)
    | some (Except.ok (out, trc)) =>
      if (out.length : Int) > maxHashes then
        some (Except.error (HashfillError.hashLimit maxHashes (out.length : Int)))
      else
        if ((hashes ++ out).length : Int) > maxHashes then
          some (Except.error (HashfillError.hashLimit maxHashes ((hashes ++ out).length : Int)))
        else
          tracedLoop maxHashes recurse hash rest (hashes ++ out) (tr ++ trc)

/-- `computeVariableHashes` instrumented with a trace recording, for every
cell the search visits, whether it was accepted, rejected or subdivided.
The result component and the control flow (branches, cap checks, errors) are
identical to `computeVariableHashes`, as `tracedVariableHashes_result`
proves; the trace is the observation the rejection claims speak about. -/
def tracedVariableHashes {σ ε : Type} (f : RecursiveFiller σ ε) (fence : σ)
    (mode : FillMode) (maxHashes : Int) (fuel : Nat) (hash : List Char) :
    Option (Except (HashfillError ε) (List (List Char) × List (List Char × Decision))) :=
  match fuel with
  | 0 => none
  | fuel' + 1 =>
    match f.container fence hash with
    | Except.error e => some (Except.error (HashfillError.pred e))
    | Except.ok true => some (Except.ok ([hash], [(hash, Decision.accepted)]))
    | Except.ok false =>
      match f.intersector fence hash with
      | Except.error e => some (Except.error (HashfillError.pred e))
      | Except.ok false => some (Except.ok ([], [(hash, Decision.rejected)]))
      | Except.ok true =>
        if (hash.length : Int) = f.maxPrecision then
          if mode = FillMode.intersects then
            some (Except.ok ([hash], [(hash, Decision.accepted)]))
          else some (Except.ok ([], [(hash, Decision.rejected)]))
        else
          tracedLoop maxHashes
            (fun h => tracedVariableHashes f fence mode maxHashes fuel' h) hash
            geohashBase32Alphabet [] [(hash, Decision.subdivided)]

/-- All symbol sequences of a given length over the geohash alphabet, in
depth-first alphabet order (the enumeration the spec describes for the
fixed-precision expansion). -/
def symbolSeqs : Nat → List (List Char)
  | 0 => [[]]
  | d + 1 =>
    (geohashBase32Alphabet.map (fun a => (symbolSeqs d).map (fun s => a :: s))).flatten

deriving instance DecidableEq for Except

/-- `IsPre a b`: the cell string `a` is a (not necessarily proper) ancestor
of `b`, i.e. `a` is an initial segment of `b`. -/
def IsPre (a b : List Char) : Prop := ∃ t, a ++ t = b

instance : DecidablePred fun p : List Char × List Char => IsPre p.1 p.2 := by
  intro p
  unfold IsPre
  by_cases h : p.1 <+: p.2
  · exact Decidable.isTrue h
  · exact Decidable.isFalse h

/-! ## Concrete fillers used by witnesses and counterexamples -/

/-- A filler whose `Contains` predicate always holds. -/
def fillerTrue : RecursiveFiller Unit Unit where
  maxPrecision := 6
  fixedPrecision := false
  container := fun _ _ => Except.ok true
  intersector := fun _ _ => Except.ok true

/-- A filler for which every cell straddles the boundary: `Contains` never
holds, `Intersects` always holds; maximum precision 1. -/
def fillerBoundary : RecursiveFiller Unit Unit where
  maxPrecision := 1
  fixedPrecision := false
  container := fun _ _ => Except.ok false
  intersector := fun _ _ => Except.ok true

/-- Like `fillerBoundary` but with maximum precision 0, so the root cell's
fate is decided immediately. -/
def fillerBoundary0 : RecursiveFiller Unit Unit where
  maxPrecision := 0
  fixedPrecision := false
  container := fun _ _ => Except.ok false
  intersector := fun _ _ => Except.ok true

/-- A fixed-precision filler whose polygon touches nothing: both predicates
always return false, so the search yields the empty list. -/
def fillerEmptyFixed : RecursiveFiller Unit Unit where
  maxPrecision := 1
  fixedPrecision := true
  container := fun _ _ => Except.ok false
  intersector := fun _ _ => Except.ok false

/-- A filler whose `Contains` predicate always fails with the error `()`. -/
def fillerErr : RecursiveFiller Unit Unit where
  maxPrecision := 1
  fixedPrecision := false
  container := fun _ _ => Except.error ()
  intersector := fun _ _ => Except.ok true

/-! ## Lemmas about the shared accumulation loop -/

theorem hashesLoop_ok_forall2 {ε : Type} (maxHashes : Int)
    (recurse : List Char → Option (Except (HashfillError ε) (List (List Char))))
    (hash : List Char) (alpha : List Char) :
    ∀ (acc l : List (List Char)),
      hashesLoop maxHashes recurse hash alpha acc = some (Except.ok l) →
      ∃ outs : List (List (List Char)),
        List.Forall₂ (fun next out => recurse (hash ++ [next]) = some (Except.ok out))
          alpha outs ∧
        l = acc ++ outs.flatten := by
  induction alpha with
  | nil =>
    intro acc l h
    simp [hashesLoop] at h
    exact ⟨[], List.Forall₂.nil, by simp [h]⟩
  | cons next rest ih =>
    intro acc l h
    rw [hashesLoop] at h
    cases hrec : recurse (hash ++ [next]) with
    | none => rw [hrec] at h; simp at h
    | some r =>
      cases r with
      | error e => rw [hrec] at h; simp at h
      | ok out =>
        rw [hrec] at h
        simp only at h
        split at h
        · simp at h
        · split at h
          · simp at h
          · obtain ⟨outs, hf, hl⟩ := ih (acc ++ out) l h
            exact ⟨out :: outs, List.Forall₂.cons hrec hf, by simp [hl]⟩

theorem forall2_flatten_mem {α β : Type} {P : α → List β → Prop}
    {alpha : List α} {outs : List (List β)} {x : β}
    (hf : List.Forall₂ P alpha outs) (hx : x ∈ outs.flatten) :
    ∃ a ∈ alpha, ∃ out, P a out ∧ x ∈ out := by
  induction hf with
  | nil => simp at hx
  | cons hpq _ ih =>
    rw [List.flatten_cons, List.mem_append] at hx
    rcases hx with hx | hx
    · exact ⟨_, List.mem_cons_self _ _, _, hpq, hx⟩
    · obtain ⟨a, ha, out, hp, hxo⟩ := ih hx
      exact ⟨a, List.mem_cons_of_mem _ ha, out, hp, hxo⟩

theorem hashesLoop_ok_mem {ε : Type} (maxHashes : Int)
    (recurse : List Char → Option (Except (HashfillError ε) (List (List Char))))
    (hash : List Char) (alpha : List Char) (acc l : List (List Char))
    (h : hashesLoop maxHashes recurse hash alpha acc = some (Except.ok l)) :
    ∀ x ∈ l, x ∈ acc ∨ ∃ next ∈ alpha, ∃ out,
      recurse (hash ++ [next]) = some (Except.ok out) ∧ x ∈ out := by
  obtain ⟨outs, hf, hl⟩ := hashesLoop_ok_forall2 maxHashes recurse hash alpha acc l h
  subst hl
  intro x hx
  rcases List.mem_append.mp hx with hx | hx
  · exact Or.inl hx
  · exact Or.inr (forall2_flatten_mem hf hx)

theorem hashesLoop_ne_none {ε : Type} (maxHashes : Int)
    (recurse : List Char → Option (Except (HashfillError ε) (List (List Char))))
    (hash : List Char) (alpha : List Char) :
    ∀ acc : List (List Char),
      (∀ next ∈ alpha, recurse (hash ++ [next]) ≠ none) →
      hashesLoop maxHashes recurse hash alpha acc ≠ none := by
  induction alpha with
  | nil => intro acc _; simp [hashesLoop]
  | cons next rest ih =>
    intro acc hrec
    rw [hashesLoop]
    cases hr : recurse (hash ++ [next]) with
    | none => exact absurd hr (hrec next (List.mem_cons_self _ _))
    | some r =>
      cases r with
      | error e => simp
      | ok out =>
        simp only
        split
        · simp
        · split
          · simp
          · exact ih (acc ++ out) fun n hn => hrec n (List.mem_cons_of_mem _ hn)

theorem hashesLoop_ok_length {ε : Type} (maxHashes : Int)
    (recurse : List Char → Option (Except (HashfillError ε) (List (List Char))))
    (hash : List Char) (alpha : List Char) :
    ∀ acc l : List (List Char),
      hashesLoop maxHashes recurse hash alpha acc = some (Except.ok l) →
      (l.length : Int) ≤ maxHashes ∨ (alpha = [] ∧ l = acc) := by
  induction alpha with
  | nil =>
    intro acc l h
    simp [hashesLoop] at h
    exact Or.inr ⟨rfl, h.symm⟩
  | cons next rest ih =>
    intro acc l h
    rw [hashesLoop] at h
    cases hr : recurse (hash ++ [next]) with
    | none => rw [hr] at h; simp at h
    | some r =>
      cases r with
      | error e => rw [hr] at h; simp at h
      | ok out =>
        rw [hr] at h
        simp only at h
        split at h
        · simp at h
        · rename_i hout
          split at h
          · simp at h
          · rename_i hacc
            rcases ih (acc ++ out) l h with hle | ⟨_, hl⟩
            · exact Or.inl hle
            · subst hl
              exact Or.inl (by omega)

theorem hashesLoop_error_shape {ε : Type} (maxHashes : Int)
    (recurse : List Char → Option (Except (HashfillError ε) (List (List Char))))
    (hash : List Char) (alpha : List Char) :
    ∀ (acc : List (List Char)) (e : HashfillError ε),
      hashesLoop maxHashes recurse hash alpha acc = some (Except.error e) →
      (∃ cnt, e = HashfillError.hashLimit maxHashes cnt) ∨
        ∃ next ∈ alpha, recurse (hash ++ [next]) = some (Except.error e) := by
  induction alpha with
  | nil => intro acc e h; simp [hashesLoop] at h
  | cons next rest ih =>
    intro acc e h
    rw [hashesLoop] at h
    cases hr : recurse (hash ++ [next]) with
    | none => rw [hr] at h; simp at h
    | some r =>
      cases r with
      | error e' =>
        rw [hr] at h
        simp only [Option.some.injEq, Except.error.injEq] at h
        subst h
        exact Or.inr ⟨next, List.mem_cons_self _ _, hr⟩
      | ok out =>
        rw [hr] at h
        simp only at h
        split at h
        · simp only [Option.some.injEq, Except.error.injEq] at h
          exact Or.inl ⟨_, h.symm⟩
        · split at h
          · simp only [Option.some.injEq, Except.error.injEq] at h
            exact Or.inl ⟨_, h.symm⟩
          · rcases ih (acc ++ out) e h with hcap | ⟨n, hn, hrn⟩
            · exact Or.inl hcap
            · exact Or.inr ⟨n, List.mem_cons_of_mem _ hn, hrn⟩

theorem hashesLoop_ok_of_fn {ε : Type} (maxHashes : Int)
    (recurse : List Char → Option (Except (HashfillError ε) (List (List Char))))
    (hash : List Char) (g : Char → List (List Char)) (alpha : List Char) :
    ∀ acc : List (List Char),
      (∀ next ∈ alpha, recurse (hash ++ [next]) = some (Except.ok (g next))) →
      (∀ next ∈ alpha, ((g next).length : Int) ≤ maxHashes) →
      ((acc.length : Int) + ((alpha.map g).flatten.length : Int) ≤ maxHashes) →
      hashesLoop maxHashes recurse hash alpha acc =
        some (Except.ok (acc ++ (alpha.map g).flatten)) := by
  induction alpha with
  | nil => intro acc _ _ _; simp [hashesLoop]
  | cons next rest ih =>
    intro acc hg hout hsum
    have hflat : ((next :: rest).map g).flatten = g next ++ (rest.map g).flatten := by
      simp
    rw [hashesLoop, hg next (List.mem_cons_self _ _)]
    simp only
    have hrestlen : (0 : Int) ≤ ((rest.map g).flatten.length : Int) := by positivity
    have hlen1 : ¬ ((g next).length : Int) > maxHashes := by
      have := hout next (List.mem_cons_self _ _)
      omega
    have hsum' : (acc.length : Int) + ((g next).length : Int) +
        ((rest.map g).flatten.length : Int) ≤ maxHashes := by
      rw [hflat] at hsum
      simp only [List.length_append] at hsum
      push_cast at hsum ⊢
      omega
    have hlen2 : ¬ (((acc ++ g next).length : Int) > maxHashes) := by
      simp only [List.length_append]
      push_cast
      omega
    rw [if_neg hlen1, if_neg hlen2]
    rw [ih (acc ++ g next) (fun n hn => hg n (List.mem_cons_of_mem _ hn))
      (fun n hn => hout n (List.mem_cons_of_mem _ hn))
      (by simp only [List.length_append]; push_cast; omega)]
    rw [hflat, List.append_assoc]

/-! ## Lemmas about the variable-precision search -/

theorem computeVariableHashes_isSome {σ ε : Type} (f : RecursiveFiller σ ε) (fence : σ)
    (mode : FillMode) (maxHashes : Int) :
    ∀ (fuel : Nat) (hash : List Char),
      (hash.length : Int) ≤ f.maxPrecision →
      (f.maxPrecision - (hash.length : Int)).toNat < fuel →
      computeVariableHashes f fence mode maxHashes fuel hash ≠ none := by
  intro fuel
  induction fuel with
  | zero => intro hash _ h2; omega
  | succ fuel ih =>
    intro hash h1 h2
    rw [computeVariableHashes]
    cases hcont : f.container fence hash with
    | error e => simp
    | ok b =>
      cases b with
      | true => simp
      | false =>
        cases hint : f.intersector fence hash with
        | error e => simp
        | ok b2 =>
          cases b2 with
          | false => simp
          | true =>
            simp only
            split
            · split <;> simp
            · rename_i hneq
              apply hashesLoop_ne_none
              intro next _
              apply ih
              · simp only [List.length_append, List.length_cons, List.length_nil]
                push_cast
                omega
              · simp only [List.length_append, List.length_cons, List.length_nil]
                push_cast
                omega

theorem forall2_mem_left {α β : Type} {P : α → β → Prop} {alpha : List α} {outs : List β}
    (hf : List.Forall₂ P alpha outs) {a : α} (ha : a ∈ alpha) :
    ∃ out ∈ outs, P a out := by
  induction hf with
  | nil => simp at ha
  | cons hpq _ ih =>
    rcases List.mem_cons.mp ha with rfl | ha
    · exact ⟨_, List.mem_cons_self _ _, hpq⟩
    · obtain ⟨out, ho, hp⟩ := ih ha
      exact ⟨out, List.mem_cons_of_mem _ ho, hp⟩

theorem forall2_mem_right {α β : Type} {P : α → β → Prop} {alpha : List α} {outs : List β}
    (hf : List.Forall₂ P alpha outs) {out : β} (ho : out ∈ outs) :
    ∃ a ∈ alpha, P a out := by
  induction hf with
  | nil => simp at ho
  | cons hpq _ ih =>
    rcases List.mem_cons.mp ho with rfl | ho
    · exact ⟨_, List.mem_cons_self _ _, hpq⟩
    · obtain ⟨a, ha, hp⟩ := ih ho
      exact ⟨a, List.mem_cons_of_mem _ ha, hp⟩

theorem computeVariableHashes_ok_cases {σ ε : Type} (f : RecursiveFiller σ ε) (fence : σ)
    (mode : FillMode) (maxHashes : Int) (fuel : Nat) (hash : List Char)
    (l : List (List Char))
    (h : computeVariableHashes f fence mode maxHashes (fuel + 1) hash = some (Except.ok l)) :
    (f.container fence hash = Except.ok true ∧ l = [hash]) ∨
    (f.container fence hash = Except.ok false ∧ f.intersector fence hash = Except.ok false ∧
      l = []) ∨
    (f.container fence hash = Except.ok false ∧ f.intersector fence hash = Except.ok true ∧
      (hash.length : Int) = f.maxPrecision ∧
      ((mode = FillMode.intersects ∧ l = [hash]) ∨ (mode ≠ FillMode.intersects ∧ l = []))) ∨
    (f.container fence hash = Except.ok false ∧ f.intersector fence hash = Except.ok true ∧
      (hash.length : Int) ≠ f.maxPrecision ∧ (l.length : Int) ≤ maxHashes ∧
      ∃ outs,
        List.Forall₂
          (fun next out =>
            computeVariableHashes f fence mode maxHashes fuel (hash ++ [next]) =
              some (Except.ok out))
          geohashBase32Alphabet outs ∧
        l = outs.flatten) := by
  rw [computeVariableHashes] at h
  cases hcont : f.container fence hash with
  | error e => rw [hcont] at h; simp at h
  | ok b =>
    cases b with
    | true =>
      rw [hcont] at h
      simp only [Option.some.injEq, Except.ok.injEq] at h
      exact Or.inl ⟨rfl, h.symm⟩
    | false =>
      rw [hcont] at h
      simp only at h
      cases hint : f.intersector fence hash with
      | error e => rw [hint] at h; simp at h
      | ok b2 =>
        cases b2 with
        | false =>
          rw [hint] at h
          simp only [Option.some.injEq, Except.ok.injEq] at h
          exact Or.inr (Or.inl ⟨rfl, rfl, h.symm⟩)
        | true =>
          rw [hint] at h
          simp only at h
          split at h
          · rename_i heq
            split at h
            · rename_i hmode
              simp only [Option.some.injEq, Except.ok.injEq] at h
              exact Or.inr (Or.inr (Or.inl ⟨rfl, rfl, heq, Or.inl ⟨hmode, h.symm⟩⟩))
            · rename_i hmode
              simp only [Option.some.injEq, Except.ok.injEq] at h
              exact Or.inr (Or.inr (Or.inl ⟨rfl, rfl, heq, Or.inr ⟨hmode, h.symm⟩⟩))
          · rename_i heq
            refine Or.inr (Or.inr (Or.inr ⟨rfl, rfl, heq, ?_, ?_⟩))
            · rcases hashesLoop_ok_length _ _ _ _ _ _ h with hle | ⟨habs, _⟩
              · exact hle
              · simp [geohashBase32Alphabet] at habs
            · obtain ⟨outs, hf2, hl⟩ := hashesLoop_ok_forall2 _ _ _ _ _ _ h
              exact ⟨outs, hf2, by simpa using hl⟩

theorem isPre_refl (a : List Char) : IsPre a a := ⟨[], by simp⟩

theorem isPre_trans {a b c : List Char} (h1 : IsPre a b) (h2 : IsPre b c) : IsPre a c := by
  obtain ⟨s, hs⟩ := h1
  obtain ⟨t, ht⟩ := h2
  exact ⟨s ++ t, by rw [← List.append_assoc, hs, ht]⟩

theorem isPre_branch_ne {hash : List Char} {a b : Char} {x y : List Char} (hab : a ≠ b)
    (hx : IsPre (hash ++ [a]) x) (hy : IsPre (hash ++ [b]) y) : ¬ IsPre x y := by
  obtain ⟨s, hs⟩ := hx
  obtain ⟨t, ht⟩ := hy
  rintro ⟨u, hu⟩
  apply hab
  have : hash ++ ([a] ++ (s ++ u)) = hash ++ ([b] ++ t) := by
    simp only [← List.append_assoc]
    rw [hs, hu, ← ht]
  have := List.append_cancel_left this
  simpa using congrArg (fun l => l.head?) this

theorem computeVariableHashes_mem_isPre {σ ε : Type} (f : RecursiveFiller σ ε) (fence : σ)
    (mode : FillMode) (maxHashes : Int) :
    ∀ (fuel : Nat) (hash : List Char) (l : List (List Char)),
      computeVariableHashes f fence mode maxHashes fuel hash = some (Except.ok l) →
      ∀ x ∈ l, IsPre hash x := by
  intro fuel
  induction fuel with
  | zero => intro hash l h; rw [computeVariableHashes] at h; simp at h
  | succ fuel ih =>
    intro hash l h x hx
    rcases computeVariableHashes_ok_cases _ _ _ _ _ _ _ h with
      ⟨_, rfl⟩ | ⟨_, _, rfl⟩ | ⟨_, _, _, hcase⟩ | ⟨_, _, _, _, outs, hf2, rfl⟩
    · rw [List.mem_singleton] at hx
      subst hx
      exact isPre_refl x
    · simp at hx
    · rcases hcase with ⟨_, rfl⟩ | ⟨_, rfl⟩
      · rw [List.mem_singleton] at hx
        subst hx
        exact isPre_refl x
      · simp at hx
    · obtain ⟨next, _, out, hro, hxo⟩ := forall2_flatten_mem hf2 hx
      exact isPre_trans ⟨[next], rfl⟩ (ih (hash ++ [next]) out hro x hxo)

theorem computeVariableHashes_contains_mem {σ ε : Type} (f : RecursiveFiller σ ε) (fence : σ)
    (maxHashes : Int) :
    ∀ (fuel : Nat) (hash : List Char) (l : List (List Char)),
      computeVariableHashes f fence FillMode.contains maxHashes fuel hash =
        some (Except.ok l) →
      ∀ x ∈ l, f.container fence x = Except.ok true := by
  intro fuel
  induction fuel with
  | zero => intro hash l h; rw [computeVariableHashes] at h; simp at h
  | succ fuel ih =>
    intro hash l h x hx
    rcases computeVariableHashes_ok_cases _ _ _ _ _ _ _ h with
      ⟨hcont, rfl⟩ | ⟨_, _, rfl⟩ | ⟨_, _, _, hcase⟩ | ⟨_, _, _, _, outs, hf2, rfl⟩
    · rw [List.mem_singleton] at hx
      subst hx
      exact hcont
    · simp at hx
    · rcases hcase with ⟨hmode, rfl⟩ | ⟨_, rfl⟩
      · simp at hmode
      · simp at hx
    · obtain ⟨next, _, out, hro, hxo⟩ := forall2_flatten_mem hf2 hx
      exact ih (hash ++ [next]) out hro x hxo

theorem forall2_pairwise {α β : Type} {P : α → β → Prop} {Q : α → α → Prop} {S : β → β → Prop}
    {alpha : List α} {outs : List β} (hf : List.Forall₂ P alpha outs)
    (hq : alpha.Pairwise Q) (himp : ∀ a b o1 o2, Q a b → P a o1 → P b o2 → S o1 o2) :
    outs.Pairwise S := by
  induction hf with
  | nil => exact List.Pairwise.nil
  | cons hpq htail ih =>
    rcases List.pairwise_cons.mp hq with ⟨hhead, hrest⟩
    refine List.Pairwise.cons ?_ (ih hrest)
    intro o2 ho2
    obtain ⟨b, hb, hpb⟩ := forall2_mem_right htail ho2
    exact himp _ _ _ _ (hhead b hb) hpq hpb

theorem computeVariableHashes_pairwise {σ ε : Type} (f : RecursiveFiller σ ε) (fence : σ)
    (mode : FillMode) (maxHashes : Int) :
    ∀ (fuel : Nat) (hash : List Char) (l : List (List Char)),
      computeVariableHashes f fence mode maxHashes fuel hash = some (Except.ok l) →
      l.Pairwise (fun a b => ¬ IsPre a b ∧ ¬ IsPre b a) := by
  intro fuel
  induction fuel with
  | zero => intro hash l h; rw [computeVariableHashes] at h; simp at h
  | succ fuel ih =>
    intro hash l h
    rcases computeVariableHashes_ok_cases _ _ _ _ _ _ _ h with
      ⟨_, rfl⟩ | ⟨_, _, rfl⟩ | ⟨_, _, _, hcase⟩ | ⟨_, _, _, _, outs, hf2, rfl⟩
    · exact List.pairwise_singleton _ _
    · exact List.Pairwise.nil
    · rcases hcase with ⟨_, rfl⟩ | ⟨_, rfl⟩
      · exact List.pairwise_singleton _ _
      · exact List.Pairwise.nil
    · rw [List.pairwise_flatten]
      constructor
      · intro out hout
        obtain ⟨next, _, hro⟩ := forall2_mem_right hf2 hout
        exact ih (hash ++ [next]) out hro
      · refine forall2_pairwise (Q := fun a b : Char => a ≠ b) hf2 ?_ ?_
        · have hnd : geohashBase32Alphabet.Nodup := by decide
          exact hnd
        · intro a b o1 o2 hab h1 h2 x hx y hy
          have hxp := computeVariableHashes_mem_isPre f fence mode maxHashes fuel
            (hash ++ [a]) o1 h1 x hx
          have hyp := computeVariableHashes_mem_isPre f fence mode maxHashes fuel
            (hash ++ [b]) o2 h2 y hy
          exact ⟨isPre_branch_ne hab hxp hyp, isPre_branch_ne (Ne.symm hab) hyp hxp⟩

theorem computeVariableHashes_ok_length {σ ε : Type} (f : RecursiveFiller σ ε) (fence : σ)
    (mode : FillMode) (maxHashes : Int) (fuel : Nat) (hash : List Char)
    (l : List (List Char))
    (h : computeVariableHashes f fence mode maxHashes fuel hash = some (Except.ok l)) :
    (l.length : Int) ≤ max maxHashes 1 := by
  cases fuel with
  | zero => rw [computeVariableHashes] at h; simp at h
  | succ fuel =>
    rcases computeVariableHashes_ok_cases _ _ _ _ _ _ _ h with
      ⟨_, rfl⟩ | ⟨_, _, rfl⟩ | ⟨_, _, _, hcase⟩ | ⟨_, _, _, hle, _⟩
    · simp
    · simp
    · rcases hcase with ⟨_, rfl⟩ | ⟨_, rfl⟩
      · simp
      · simp
    · have := le_max_left maxHashes 1
      omega

theorem computeVariableHashes_mode_mono {σ ε : Type} (f : RecursiveFiller σ ε) (fence : σ)
    (maxHashes : Int) :
    ∀ (fuel : Nat) (hash : List Char) (l1 l2 : List (List Char)),
      computeVariableHashes f fence FillMode.contains maxHashes fuel hash =
        some (Except.ok l1) →
      computeVariableHashes f fence FillMode.intersects maxHashes fuel hash =
        some (Except.ok l2) →
      ∀ x ∈ l1, x ∈ l2 := by
  intro fuel
  induction fuel with
  | zero => intro hash l1 l2 h1 _; rw [computeVariableHashes] at h1; simp at h1
  | succ fuel ih =>
    intro hash l1 l2 h1 h2
    rcases computeVariableHashes_ok_cases _ _ _ _ _ _ _ h1 with
      ⟨hcont, rfl⟩ | ⟨_, _, rfl⟩ | ⟨_, _, _, hcase⟩ | ⟨hcont, hint, hlen, _, outs1, hf1, rfl⟩
    · rcases computeVariableHashes_ok_cases _ _ _ _ _ _ _ h2 with
        ⟨_, rfl⟩ | ⟨hcont', _, _⟩ | ⟨hcont', _, _, _⟩ | ⟨hcont', _, _, _, _⟩
      · exact fun x hx => hx
      · rw [hcont] at hcont'; simp at hcont'
      · rw [hcont] at hcont'; simp at hcont'
      · rw [hcont] at hcont'; simp at hcont'
    · intro x hx; simp at hx
    · rcases hcase with ⟨hmode, _⟩ | ⟨_, rfl⟩
      · simp at hmode
      · intro x hx; simp at hx
    · rcases computeVariableHashes_ok_cases _ _ _ _ _ _ _ h2 with
        ⟨hcont', _⟩ | ⟨_, hint', _⟩ | ⟨_, _, hlen', _⟩ | ⟨_, _, _, _, outs2, hf2, rfl⟩
      · rw [hcont] at hcont'; simp at hcont'
      · rw [hint] at hint'; simp at hint'
      · exact absurd hlen' hlen
      · intro x hx
        obtain ⟨next, hnext, out1, hro1, hx1⟩ := forall2_flatten_mem hf1 hx
        obtain ⟨out2, ho2, hro2⟩ := forall2_mem_left hf2 hnext
        exact List.mem_flatten.mpr ⟨out2, ho2, ih _ out1 out2 hro1 hro2 x hx1⟩

theorem computeVariableHashes_error_shape {σ ε : Type} (f : RecursiveFiller σ ε) (fence : σ)
    (mode : FillMode) (maxHashes : Int)
    (hc : ∀ h', ∃ b, f.container fence h' = Except.ok b)
    (hi : ∀ h', ∃ b, f.intersector fence h' = Except.ok b) :
    ∀ (fuel : Nat) (hash : List Char) (e : HashfillError ε),
      computeVariableHashes f fence mode maxHashes fuel hash = some (Except.error e) →
      ∃ cnt, e = HashfillError.hashLimit maxHashes cnt := by
  intro fuel
  induction fuel with
  | zero => intro hash e h; rw [computeVariableHashes] at h; simp at h
  | succ fuel ih =>
    intro hash e h
    rw [computeVariableHashes] at h
    obtain ⟨bc, hbc⟩ := hc hash
    rw [hbc] at h
    cases bc with
    | true => simp at h
    | false =>
      simp only at h
      obtain ⟨bi, hbi⟩ := hi hash
      rw [hbi] at h
      cases bi with
      | false => simp at h
      | true =>
        simp only at h
        split at h
        · split at h <;> simp at h
        · rcases hashesLoop_error_shape _ _ _ _ _ _ h with hcap | ⟨next, _, hrn⟩
          · exact hcap
          · exact ih _ _ hrn

theorem computeVariableHashes_error_pred {σ ε : Type} (f : RecursiveFiller σ ε) (fence : σ)
    (mode : FillMode) (maxHashes : Int) :
    ∀ (fuel : Nat) (hash : List Char) (e : ε),
      computeVariableHashes f fence mode maxHashes fuel hash =
        some (Except.error (HashfillError.pred e)) →
      ∃ cell, IsPre hash cell ∧
        (f.container fence cell = Except.error e ∨
          (f.container fence cell = Except.ok false ∧
            f.intersector fence cell = Except.error e)) := by
  intro fuel
  induction fuel with
  | zero => intro hash e h; rw [computeVariableHashes] at h; simp at h
  | succ fuel ih =>
    intro hash e h
    rw [computeVariableHashes] at h
    cases hbc : f.container fence hash with
    | error e' =>
      rw [hbc] at h
      simp only [Option.some.injEq, Except.error.injEq, HashfillError.pred.injEq] at h
      subst h
      exact ⟨hash, isPre_refl hash, Or.inl hbc⟩
    | ok bc =>
      rw [hbc] at h
      cases bc with
      | true => simp at h
      | false =>
        simp only at h
        cases hbi : f.intersector fence hash with
        | error e' =>
          rw [hbi] at h
          simp only [Option.some.injEq, Except.error.injEq, HashfillError.pred.injEq] at h
          subst h
          exact ⟨hash, isPre_refl hash, Or.inr ⟨hbc, hbi⟩⟩
        | ok bi =>
          rw [hbi] at h
          cases bi with
          | false => simp at h
          | true =>
            simp only at h
            split at h
            · split at h <;> simp at h
            · rcases hashesLoop_error_shape _ _ _ _ _ _ h with ⟨cnt, hcap⟩ | ⟨next, _, hrn⟩
              · simp at hcap
              · obtain ⟨cell, hpre, hor⟩ := ih _ _ hrn
                exact ⟨cell, isPre_trans ⟨[next], rfl⟩ hpre, hor⟩

/-! ## Lemmas about the fixed-precision expansion -/

theorem symbolSeqs_length (d : Nat) : (symbolSeqs d).length = 32 ^ d := by
  induction d with
  | zero => rfl
  | succ d ih =>
    rw [symbolSeqs, List.length_flatten, List.map_map]
    have hfun : ((fun l : List (List Char) => l.length) ∘
        fun a : Char => (symbolSeqs d).map (fun s => a :: s)) = fun _ : Char => 32 ^ d := by
      funext a
      simp [Function.comp, ih]
    rw [hfun, List.map_const', List.sum_replicate, smul_eq_mul]
    norm_num [geohashBase32Alphabet]
    ring

theorem symbolSeqs_mem_length (d : Nat) : ∀ s ∈ symbolSeqs d, s.length = d := by
  induction d with
  | zero => intro s hs; simp [symbolSeqs] at hs; simp [hs]
  | succ d ih =>
    intro s hs
    rw [symbolSeqs] at hs
    obtain ⟨l', hl', hsl⟩ := List.mem_flatten.mp hs
    obtain ⟨a, _, rfl⟩ := List.mem_map.mp hl'
    obtain ⟨t, ht, rfl⟩ := List.mem_map.mp hsl
    simp [ih t ht]

theorem extendHashToMaxPrecision_error_shape {ε : Type} (maxPrecision maxHashes : Int) :
    ∀ (fuel : Nat) (hash : List Char) (e : HashfillError ε),
      extendHashToMaxPrecision maxPrecision maxHashes fuel hash =
        some (Except.error e) →
      ∃ cnt, e = HashfillError.hashLimit maxHashes cnt := by
  intro fuel
  induction fuel with
  | zero => intro hash e h; rw [extendHashToMaxPrecision] at h; simp at h
  | succ fuel ih =>
    intro hash e h
    rw [extendHashToMaxPrecision] at h
    split at h
    · simp at h
    · rcases hashesLoop_error_shape _ _ _ _ _ _ h with hcap | ⟨next, _, hrn⟩
      · exact hcap
      · exact ih _ _ hrn

theorem extendHashToMaxPrecision_enum {ε : Type} (maxPrecision maxHashes : Int) :
    ∀ (d fuel : Nat) (hash : List Char),
      (hash.length : Int) + d = maxPrecision →
      ((32 : Int) ^ d ≤ maxHashes) →
      d < fuel →
      extendHashToMaxPrecision (ε := ε) maxPrecision maxHashes fuel hash =
        some (Except.ok ((symbolSeqs d).map (fun s => hash ++ s))) := by
  intro d
  induction d with
  | zero =>
    intro fuel hash hlen _ hfuel
    cases fuel with
    | zero => omega
    | succ fuel =>
      rw [extendHashToMaxPrecision, if_pos (by omega)]
      simp [symbolSeqs]
  | succ d ih =>
    intro fuel hash hlen hcap hfuel
    cases fuel with
    | zero => omega
    | succ fuel =>
      have hcap' : (32 : Int) ^ d ≤ maxHashes :=
        le_trans (pow_le_pow_right₀ (by norm_num) (Nat.le_succ d)) hcap
      have hne : ¬ ((hash.length : Int) = maxPrecision) := by
        push_cast at hlen
        omega
      rw [extendHashToMaxPrecision, if_neg hne]
      have hg : ∀ next ∈ geohashBase32Alphabet,
          extendHashToMaxPrecision (ε := ε) maxPrecision maxHashes fuel (hash ++ [next]) =
            some (Except.ok ((symbolSeqs d).map (fun s => (hash ++ [next]) ++ s))) := by
        intro next _
        apply ih
        · push_cast at hlen ⊢
          simp only [List.length_append, List.length_cons, List.length_nil]
          push_cast
          omega
        · exact hcap'
        · omega
      have hlen32 : ∀ next : Char,
          ((((symbolSeqs d).map (fun s => (hash ++ [next]) ++ s)).length : Int)) =
            (32 : Int) ^ d := by
        intro next
        rw [List.length_map, symbolSeqs_length]
        push_cast
        ring
      have hflat : (((geohashBase32Alphabet.map
            (fun next => (symbolSeqs d).map (fun s => (hash ++ [next]) ++ s))).flatten.length :
            Int)) = 32 * (32 : Int) ^ d := by
        rw [List.length_flatten, List.map_map]
        have hconst : List.map (List.length ∘
            fun next => (symbolSeqs d).map (fun s => (hash ++ [next]) ++ s))
            geohashBase32Alphabet = List.replicate 32 (32 ^ d) := by
          have hfun : (List.length ∘
              fun next : Char => (symbolSeqs d).map (fun s => (hash ++ [next]) ++ s)) =
              fun _ : Char => 32 ^ d := by
            funext a
            simp [Function.comp, symbolSeqs_length]
          rw [hfun, List.map_const']
          rfl
        rw [hconst, List.sum_replicate, smul_eq_mul]
        push_cast
        ring
      rw [hashesLoop_ok_of_fn maxHashes _ hash
        (fun next => (symbolSeqs d).map (fun s => (hash ++ [next]) ++ s))
        geohashBase32Alphabet []
        hg (fun next _ => by rw [hlen32]; exact hcap')
        (by
          rw [hflat]
          have h32 : (32 : Int) ^ (d + 1) = 32 * (32 : Int) ^ d := by ring
          simp only [List.length_nil]
          push_cast
          omega)]
      simp only [List.nil_append, Option.some.injEq, Except.ok.injEq]
      rw [symbolSeqs, List.map_flatten, List.map_map]
      congr 1
      apply List.map_congr_left
      intro a _
      simp only [Function.comp, List.map_map]
      apply List.map_congr_left
      intro s _
      simp

/-! ## Lemmas about the orchestration's expansion loop -/

theorem fillExtendLoop_ok_forall2 {ε : Type} (maxPrecision maxHashes : Int) (fuel : Nat)
    (hashes : List (List Char)) :
    ∀ (acc l : List (List Char)),
      fillExtendLoop (ε := ε) maxPrecision maxHashes fuel hashes acc =
        some (Except.ok l) →
      ∃ outs : List (List (List Char)),
        List.Forall₂
          (fun h out =>
            extendHashToMaxPrecision (ε := ε) maxPrecision maxHashes fuel h =
              some (Except.ok out))
          hashes outs ∧
        l = acc ++ outs.flatten := by
  induction hashes with
  | nil =>
    intro acc l h
    simp [fillExtendLoop] at h
    exact ⟨[], List.Forall₂.nil, by simp [h]⟩
  | cons hd rest ih =>
    intro acc l h
    rw [fillExtendLoop] at h
    cases hr : extendHashToMaxPrecision (ε := ε) maxPrecision maxHashes fuel hd with
    | none => rw [hr] at h; simp at h
    | some r =>
      cases r with
      | error e => rw [hr] at h; simp at h
      | ok out =>
        rw [hr] at h
        simp only at h
        split at h
        · simp at h
        · obtain ⟨outs, hf, hl⟩ := ih (acc ++ out) l h
          exact ⟨out :: outs, List.Forall₂.cons hr hf, by simp [hl]⟩

theorem fillExtendLoop_ok_length {ε : Type} (maxPrecision maxHashes : Int) (fuel : Nat)
    (hashes : List (List Char)) :
    ∀ (acc l : List (List Char)),
      fillExtendLoop (ε := ε) maxPrecision maxHashes fuel hashes acc =
        some (Except.ok l) →
      (l.length : Int) ≤ maxHashes ∨ (hashes = [] ∧ l = acc) := by
  induction hashes with
  | nil =>
    intro acc l h
    simp [fillExtendLoop] at h
    exact Or.inr ⟨rfl, h.symm⟩
  | cons hd rest ih =>
    intro acc l h
    rw [fillExtendLoop] at h
    cases hr : extendHashToMaxPrecision (ε := ε) maxPrecision maxHashes fuel hd with
    | none => rw [hr] at h; simp at h
    | some r =>
      cases r with
      | error e => rw [hr] at h; simp at h
      | ok out =>
        rw [hr] at h
        simp only at h
        split at h
        · simp at h
        · rename_i hle
          rcases ih (acc ++ out) l h with hlen | ⟨_, rfl⟩
          · exact Or.inl hlen
          · exact Or.inl (by omega)

theorem fillExtendLoop_error_shape {ε : Type} (maxPrecision maxHashes : Int) (fuel : Nat)
    (hashes : List (List Char)) :
    ∀ (acc : List (List Char)) (e : HashfillError ε),
      fillExtendLoop (ε := ε) maxPrecision maxHashes fuel hashes acc =
        some (Except.error e) →
      (∃ cnt, e = HashfillError.hashLimit maxHashes cnt) ∨
        ∃ h ∈ hashes,
          extendHashToMaxPrecision (ε := ε) maxPrecision maxHashes fuel h =
            some (Except.error e) := by
  induction hashes with
  | nil => intro acc e h; simp [fillExtendLoop] at h
  | cons hd rest ih =>
    intro acc e h
    rw [fillExtendLoop] at h
    cases hr : extendHashToMaxPrecision (ε := ε) maxPrecision maxHashes fuel hd with
    | none => rw [hr] at h; simp at h
    | some r =>
      cases r with
      | error e' =>
        rw [hr] at h
        simp only [Option.some.injEq, Except.error.injEq] at h
        subst h
        exact Or.inr ⟨hd, List.mem_cons_self _ _, hr⟩
      | ok out =>
        rw [hr] at h
        simp only at h
        split at h
        · simp only [Option.some.injEq, Except.error.injEq] at h
          exact Or.inl ⟨_, h.symm⟩
        · rcases ih (acc ++ out) e h with hcap | ⟨h', hh', hr'⟩
          · exact Or.inl hcap
          · exact Or.inr ⟨h', List.mem_cons_of_mem _ hh', hr'⟩

/-! ## Lemmas about the traced search -/

theorem tracedLoop_result {ε : Type} (maxHashes : Int)
    (recurseT : List Char →
      Option (Except (HashfillError ε) (List (List Char) × List (List Char × Decision))))
    (recurse : List Char → Option (Except (HashfillError ε) (List (List Char))))
    (hash : List Char)
    (hrec : ∀ h, Option.map (Except.map Prod.fst) (recurseT h) = recurse h)
    (alpha : List Char) :
    ∀ (acc : List (List Char)) (tr : List (List Char × Decision)),
      Option.map (Except.map Prod.fst) (tracedLoop maxHashes recurseT hash alpha acc tr) =
        hashesLoop maxHashes recurse hash alpha acc := by
  induction alpha with
  | nil => intro acc tr; simp [tracedLoop, hashesLoop, Except.map]
  | cons next rest ih =>
    intro acc tr
    rw [tracedLoop, hashesLoop]
    cases hr : recurseT (hash ++ [next]) with
    | none =>
      have hrecv : recurse (hash ++ [next]) = none := by rw [← hrec, hr]; rfl
      rw [hrecv]
      simp
    | some r =>
      cases r with
      | error e =>
        have hrecv : recurse (hash ++ [next]) = some (Except.error e) := by
          rw [← hrec, hr]
          rfl
        rw [hrecv]
        simp [Except.map]
      | ok p =>
        obtain ⟨out, trc⟩ := p
        have hrecv : recurse (hash ++ [next]) = some (Except.ok out) := by
          rw [← hrec, hr]
          rfl
        rw [hrecv]
        simp only
        by_cases h1 : (out.length : Int) > maxHashes
        · rw [if_pos h1, if_pos h1]
          rfl
        · rw [if_neg h1, if_neg h1]
          by_cases h2 : (((acc ++ out).length : Int)) > maxHashes
          · rw [if_pos h2, if_pos h2]
            rfl
          · rw [if_neg h2, if_neg h2]
            exact ih (acc ++ out) (tr ++ trc)

theorem tracedVariableHashes_result {σ ε : Type} (f : RecursiveFiller σ ε) (fence : σ)
    (mode : FillMode) (maxHashes : Int) :
    ∀ (fuel : Nat) (hash : List Char),
      Option.map (Except.map Prod.fst)
          (tracedVariableHashes f fence mode maxHashes fuel hash) =
        computeVariableHashes f fence mode maxHashes fuel hash := by
  intro fuel
  induction fuel with
  | zero => intro hash; rw [tracedVariableHashes, computeVariableHashes]; rfl
  | succ fuel ih =>
    intro hash
    rw [tracedVariableHashes, computeVariableHashes]
    cases hbc : f.container fence hash with
    | error e => simp [Except.map]
    | ok bc =>
      cases bc with
      | true => simp [Except.map]
      | false =>
        simp only
        cases hbi : f.intersector fence hash with
        | error e => simp [Except.map]
        | ok bi =>
          cases bi with
          | false => simp [Except.map]
          | true =>
            simp only
            split
            · split <;> simp [Except.map]
            · exact tracedLoop_result maxHashes _ _ hash ih geohashBase32Alphabet _ _

theorem tracedLoop_mem_tr {ε : Type} (maxHashes : Int)
    (recurseT : List Char →
      Option (Except (HashfillError ε) (List (List Char) × List (List Char × Decision))))
    (hash : List Char) (alpha : List Char) :
    ∀ (acc : List (List Char)) (tr : List (List Char × Decision))
      (l : List (List Char)) (tl : List (List Char × Decision)),
      tracedLoop maxHashes recurseT hash alpha acc tr = some (Except.ok (l, tl)) →
      ∀ p ∈ tl, p ∈ tr ∨ ∃ next ∈ alpha, ∃ out trc,
        recurseT (hash ++ [next]) = some (Except.ok (out, trc)) ∧ p ∈ trc := by
  induction alpha with
  | nil =>
    intro acc tr l tl h p hp
    simp [tracedLoop] at h
    exact Or.inl (h.2 ▸ hp)
  | cons next rest ih =>
    intro acc tr l tl h p hp
    rw [tracedLoop] at h
    cases hr : recurseT (hash ++ [next]) with
    | none => rw [hr] at h; simp at h
    | some r =>
      cases r with
      | error e => rw [hr] at h; simp at h
      | ok q =>
        obtain ⟨out, trc⟩ := q
        rw [hr] at h
        simp only at h
        split at h
        · simp at h
        · split at h
          · simp at h
          · rcases ih (acc ++ out) (tr ++ trc) l tl h p hp with hin | ⟨n, hn, o, t, hro, hpt⟩
            · rcases List.mem_append.mp hin with hin | hin
              · exact Or.inl hin
              · exact Or.inr ⟨next, List.mem_cons_self _ _, out, trc, hr, hin⟩
            · exact Or.inr ⟨n, List.mem_cons_of_mem _ hn, o, t, hro, hpt⟩

theorem tracedVariableHashes_rejected {σ ε : Type} (f : RecursiveFiller σ ε) (fence : σ)
    (mode : FillMode) (maxHashes : Int) :
    ∀ (fuel : Nat) (hash : List Char) (l : List (List Char))
      (tl : List (List Char × Decision)) (c : List Char),
      tracedVariableHashes f fence mode maxHashes fuel hash = some (Except.ok (l, tl)) →
      (c, Decision.rejected) ∈ tl →
      f.intersector fence c = Except.ok false ∨
        (mode = FillMode.contains ∧ (c.length : Int) = f.maxPrecision ∧
          f.container fence c = Except.ok false ∧ f.intersector fence c = Except.ok true) := by
  intro fuel
  induction fuel with
  | zero => intro hash l tl c h _; rw [tracedVariableHashes] at h; simp at h
  | succ fuel ih =>
    intro hash l tl c h hp
    rw [tracedVariableHashes] at h
    cases hbc : f.container fence hash with
    | error e => rw [hbc] at h; simp at h
    | ok bc =>
      rw [hbc] at h
      cases bc with
      | true =>
        simp only [Option.some.injEq, Except.ok.injEq, Prod.mk.injEq] at h
        rw [← h.2] at hp
        simp at hp
      | false =>
        simp only at h
        cases hbi : f.intersector fence hash with
        | error e => rw [hbi] at h; simp at h
        | ok bi =>
          rw [hbi] at h
          cases bi with
          | false =>
            simp only [Option.some.injEq, Except.ok.injEq, Prod.mk.injEq] at h
            rw [← h.2] at hp
            simp only [List.mem_singleton, Prod.mk.injEq] at hp
            rcases hp with ⟨rfl, -⟩
            exact Or.inl hbi
          | true =>
            simp only at h
            split at h
            · rename_i hmax
              split at h
              · simp only [Option.some.injEq, Except.ok.injEq, Prod.mk.injEq] at h
                rw [← h.2] at hp
                simp at hp
              · rename_i hmode
                simp only [Option.some.injEq, Except.ok.injEq, Prod.mk.injEq] at h
                rw [← h.2] at hp
                simp only [List.mem_singleton, Prod.mk.injEq] at hp
                rcases hp with ⟨rfl, -⟩
                refine Or.inr ⟨?_, hmax, hbc, hbi⟩
                cases mode with
                | intersects => exact absurd rfl hmode
                | contains => rfl
            · rcases tracedLoop_mem_tr _ _ _ _ _ _ _ _ h _ hp with hin | ⟨n, _, o, t, hro, hpt⟩
              · simp only [List.mem_singleton, Prod.mk.injEq] at hin
                cases hin.2
              · exact ih (hash ++ [n]) o t c hro hpt

/-! ## Lemmas about the orchestration -/

theorem Fill_ok_length {σ ε : Type} (f : RecursiveFiller σ ε) (fence : σ) (mode : FillMode)
    (maxHashes : Int) (fuel : Nat) (l : List (List Char))
    (h : Fill f fence mode maxHashes fuel = some (Except.ok l)) :
    (l.length : Int) ≤ max maxHashes 1 ∧
      (f.fixedPrecision = true → (l.length : Int) ≤ maxHashes) := by
  rw [Fill] at h
  cases hres : computeVariableHashes f fence mode maxHashes fuel [] with
  | none => rw [hres] at h; simp at h
  | some r =>
    rw [hres] at h
    cases r with
    | error e => simp at h
    | ok hashes =>
      simp only at h
      by_cases hfp : f.fixedPrecision = false
      · rw [if_pos hfp] at h
        simp only [Option.some.injEq, Except.ok.injEq] at h
        subst h
        refine ⟨computeVariableHashes_ok_length _ _ _ _ _ _ _ hres, fun ht => ?_⟩
        rw [hfp] at ht
        cases ht
      · rw [if_neg hfp] at h
        split at h
        · simp at h
        · rename_i hpre
          rcases fillExtendLoop_ok_length _ _ _ _ _ _ h with hle | ⟨_, rfl⟩
          · have := le_max_left maxHashes 1
            exact ⟨by omega, fun _ => hle⟩
          · simp only [List.length_nil, Nat.cast_zero]
            have := le_max_right maxHashes 1
            exact ⟨by omega, fun _ => by omega⟩

theorem Fill_mode_mono {σ ε : Type} (f : RecursiveFiller σ ε) (fence : σ)
    (maxHashes : Int) (fuel : Nat) (l1 l2 : List (List Char))
    (h1 : Fill f fence FillMode.contains maxHashes fuel = some (Except.ok l1))
    (h2 : Fill f fence FillMode.intersects maxHashes fuel = some (Except.ok l2)) :
    ∀ x ∈ l1, x ∈ l2 := by
  rw [Fill] at h1 h2
  cases hres1 : computeVariableHashes f fence FillMode.contains maxHashes fuel [] with
  | none => rw [hres1] at h1; simp at h1
  | some r1 =>
    rw [hres1] at h1
    cases r1 with
    | error e => simp at h1
    | ok hashes1 =>
      cases hres2 : computeVariableHashes f fence FillMode.intersects maxHashes fuel [] with
      | none => rw [hres2] at h2; simp at h2
      | some r2 =>
        rw [hres2] at h2
        cases r2 with
        | error e => simp at h2
        | ok hashes2 =>
          have hmono := computeVariableHashes_mode_mono f fence maxHashes fuel []
            hashes1 hashes2 hres1 hres2
          simp only at h1 h2
          by_cases hfp : f.fixedPrecision = false
          · rw [if_pos hfp] at h1 h2
            simp only [Option.some.injEq, Except.ok.injEq] at h1 h2
            subst h1
            subst h2
            exact hmono
          · rw [if_neg hfp] at h1 h2
            split at h1
            · simp at h1
            · split at h2
              · simp at h2
              · obtain ⟨outs1, hf1, hl1⟩ := fillExtendLoop_ok_forall2 _ _ _ _ _ _ h1
                obtain ⟨outs2, hf2, hl2⟩ := fillExtendLoop_ok_forall2 _ _ _ _ _ _ h2
                subst hl1
                subst hl2
                intro x hx
                simp only [List.nil_append] at hx ⊢
                obtain ⟨h', hh', out, hext, hxout⟩ := forall2_flatten_mem hf1 hx
                obtain ⟨out2, ho2, hext2⟩ := forall2_mem_left hf2 (hmono h' hh')
                rw [hext] at hext2
                simp only [Option.some.injEq, Except.ok.injEq] at hext2
                subst hext2
                exact List.mem_flatten.mpr ⟨out, ho2, hxout⟩

theorem Fill_error_pred {σ ε : Type} (f : RecursiveFiller σ ε) (fence : σ) (mode : FillMode)
    (maxHashes : Int) (fuel : Nat) (e : ε)
    (h : Fill f fence mode maxHashes fuel = some (Except.error (HashfillError.pred e))) :
    ∃ cell, f.container fence cell = Except.error e ∨
      (f.container fence cell = Except.ok false ∧
        f.intersector fence cell = Except.error e) := by
  rw [Fill] at h
  cases hres : computeVariableHashes f fence mode maxHashes fuel [] with
  | none => rw [hres] at h; simp at h
  | some r =>
    rw [hres] at h
    cases r with
    | error e0 =>
      simp only [Option.some.injEq, Except.error.injEq] at h
      subst h
      obtain ⟨cell, _, hor⟩ :=
        computeVariableHashes_error_pred f fence mode maxHashes fuel [] e hres
      exact ⟨cell, hor⟩
    | ok hashes =>
      simp only at h
      by_cases hfp : f.fixedPrecision = false
      · rw [if_pos hfp] at h; simp at h
      · rw [if_neg hfp] at h
        split at h
        · simp at h
        · rcases fillExtendLoop_error_shape _ _ _ _ _ _ h with ⟨cnt, hcap⟩ | ⟨h', _, hext⟩
          · simp at hcap
          · obtain ⟨cnt, habs⟩ := extendHashToMaxPrecision_error_shape _ _ _ _ _ hext
            simp at habs

/-! ## Claims -/

/-- C1 (amended): with pure, error-free predicates, a start cell within the
precision bound and enough fuel, `computeVariableHashes` follows the spec's
case analysis: contained cells are accepted as `[c]` without subdividing;
non-intersecting cells yield `[]`; boundary cells at maximum precision yield
`[c]` under `Intersects` mode and `[]` under `Contains` mode; otherwise the
call either returns the concatenation, in alphabet order, of the 32 child
results, or — the amendment the counterexample forces — fails with the
output-cap error when an accumulation check exceeds `maxHashes`. -/
theorem c1_case_analysis {σ ε : Type} (f : RecursiveFiller σ ε) (fence : σ)
    (mode : FillMode) (maxHashes : Int) (hash : List Char) (s : Nat)
    (hc : ∀ h', ∃ b, f.container fence h' = Except.ok b)
    (hi : ∀ h', ∃ b, f.intersector fence h' = Except.ok b)
    (hlen : (hash.length : Int) ≤ f.maxPrecision)
    (hfuel : (f.maxPrecision - (hash.length : Int)).toNat ≤ s) :
    (f.container fence hash = Except.ok true →
      computeVariableHashes f fence mode maxHashes (s + 1) hash =
        some (Except.ok [hash])) ∧
    (f.container fence hash = Except.ok false →
      f.intersector fence hash = Except.ok false →
      computeVariableHashes f fence mode maxHashes (s + 1) hash =
        some (Except.ok [])) ∧
    (f.container fence hash = Except.ok false →
      f.intersector fence hash = Except.ok true →
      (hash.length : Int) = f.maxPrecision →
      computeVariableHashes f fence mode maxHashes (s + 1) hash =
        some (Except.ok (if mode = FillMode.intersects then [hash] else []))) ∧
    (f.container fence hash = Except.ok false →
      f.intersector fence hash = Except.ok true →
      (hash.length : Int) ≠ f.maxPrecision →
      (∃ outs, List.Forall₂ (fun next out =>
          computeVariableHashes f fence mode maxHashes s (hash ++ [next]) =
            some (Except.ok out)) geohashBase32Alphabet outs ∧
        computeVariableHashes f fence mode maxHashes (s + 1) hash =
          some (Except.ok outs.flatten)) ∨
      (∃ cnt, computeVariableHashes f fence mode maxHashes (s + 1) hash =
        some (Except.error (HashfillError.hashLimit maxHashes cnt)))) := by
  refine ⟨?_, ?_, ?_, ?_⟩
  · intro hcont
    rw [computeVariableHashes, hcont]
  · intro hcont hint
    rw [computeVariableHashes, hcont]
    simp only
    rw [hint]
  · intro hcont hint hmax
    rw [computeVariableHashes, hcont]
    simp only
    rw [hint]
    simp only
    rw [if_pos hmax]
    by_cases hmode : mode = FillMode.intersects
    · rw [if_pos hmode, if_pos hmode]
    · rw [if_neg hmode, if_neg hmode]
  · intro hcont hint hne
    have hsome := computeVariableHashes_isSome f fence mode maxHashes (s + 1) hash hlen
      (by omega)
    cases hres : computeVariableHashes f fence mode maxHashes (s + 1) hash with
    | none => exact absurd hres hsome
    | some r =>
      cases r with
      | ok l =>
        left
        rcases computeVariableHashes_ok_cases _ _ _ _ _ _ _ hres with
          ⟨hcont', _⟩ | ⟨_, hint', _⟩ | ⟨_, _, hmax', _⟩ | ⟨_, _, _, _, outs, hf, rfl⟩
        · rw [hcont] at hcont'; cases hcont'
        · rw [hint] at hint'; cases hint'
        · exact absurd hmax' hne
        · exact ⟨outs, hf, rfl⟩
      | error e =>
        right
        obtain ⟨cnt, rfl⟩ :=
          computeVariableHashes_error_shape f fence mode maxHashes hc hi _ _ _ hres
        exact ⟨cnt, rfl⟩

/-- C1 counterexample: with pure, error-free predicates (`Contains` always
false, `Intersects` always true, maximum precision 1) and cap 0, the
straddling root cell is subdivided but the call returns the output-cap
error, not the concatenation of the 32 child results. -/
theorem c1_counterexample :
    fillerBoundary.container () [] = Except.ok false ∧
    fillerBoundary.intersector () [] = Except.ok true ∧
    ((([] : List Char).length : Int) ≠ fillerBoundary.maxPrecision) ∧
    computeVariableHashes fillerBoundary () FillMode.intersects 0 2 [] =
      some (Except.error (HashfillError.hashLimit 0 1)) :=
  ⟨rfl, rfl, by decide, rfl⟩

/-- C1 witness: at the boundary filler's max-precision cell `"0"`, case 3 of
the analysis yields `["0"]` under `Intersects` mode. -/
theorem c1_case_analysis_witness :
    computeVariableHashes fillerBoundary () FillMode.intersects 100 2 ['0'] =
      some (Except.ok (if FillMode.intersects = FillMode.intersects then [['0']] else [])) :=
  (c1_case_analysis fillerBoundary () FillMode.intersects 100 ['0'] 1
    (fun _ => ⟨false, rfl⟩) (fun _ => ⟨true, rfl⟩) (by decide) (by decide)).2.2.1
    rfl rfl (by decide)

/-- C2 (amended): a successful `Fill` result has at most
`max maxHashes 1` cells — at most `maxHashes` in fixed-precision mode, while
in variable mode a single directly accepted cell can exceed a smaller cap
because acceptance performs no cap comparison. -/
theorem c2_output_cap {σ ε : Type} (f : RecursiveFiller σ ε) (fence : σ) (mode : FillMode)
    (maxHashes : Int) (fuel : Nat) (l : List (List Char))
    (h : Fill f fence mode maxHashes fuel = some (Except.ok l)) :
    (l.length : Int) ≤ max maxHashes 1 ∧
      (f.fixedPrecision = true → (l.length : Int) ≤ maxHashes) :=
  Fill_ok_length f fence mode maxHashes fuel l h

/-- C2 counterexample: with a polygon containing the root cell and cap 0,
`Fill` succeeds with one cell, exceeding `maxHashes`. -/
theorem c2_counterexample :
    Fill fillerTrue () FillMode.contains 0 1 = some (Except.ok [[]]) ∧
    ¬ ((([[ ]] : List (List Char)).length : Int) ≤ 0) :=
  ⟨rfl, by decide⟩

/-- C2 witness: the bound evaluated on the root-contained run with cap 0. -/
theorem c2_output_cap_witness :
    ((([[ ]] : List (List Char)).length : Int) ≤ max 0 1) ∧
      (fillerTrue.fixedPrecision = true → ((([[ ]] : List (List Char)).length : Int) ≤ 0)) :=
  c2_output_cap fillerTrue () FillMode.contains 0 1 [[]] rfl

/-- C3: a successful variable-precision result is prefix-disjoint — no
returned cell is an initial segment (ancestor, including equality) of
another — and in `Contains` mode every returned cell satisfies the
`Contains` predicate. -/
theorem c3_disjoint_contained {σ ε : Type} (f : RecursiveFiller σ ε) (fence : σ)
    (mode : FillMode) (maxHashes : Int) (fuel : Nat) (hash : List Char)
    (l : List (List Char))
    (h : computeVariableHashes f fence mode maxHashes fuel hash = some (Except.ok l)) :
    l.Pairwise (fun a b => ¬ IsPre a b ∧ ¬ IsPre b a) ∧
      (mode = FillMode.contains → ∀ x ∈ l, f.container fence x = Except.ok true) := by
  refine ⟨computeVariableHashes_pairwise f fence mode maxHashes fuel hash l h, ?_⟩
  intro hm
  subst hm
  exact computeVariableHashes_contains_mem f fence maxHashes fuel hash l h

/-- C3 witness: the invariants evaluated on the root-contained run. -/
theorem c3_disjoint_contained_witness :
    ([[ ]] : List (List Char)).Pairwise (fun a b => ¬ IsPre a b ∧ ¬ IsPre b a) ∧
      (FillMode.contains = FillMode.contains →
        ∀ x ∈ ([[ ]] : List (List Char)), fillerTrue.container () x = Except.ok true) :=
  c3_disjoint_contained fillerTrue () FillMode.contains 10 1 [] [[]] rfl

/-- C4: when `Fill` succeeds for the same inputs under both modes, every
cell of the `Contains`-mode result also appears in the `Intersects`-mode
result (the `Intersects` output is a superset as a set). -/
theorem c4_mode_superset {σ ε : Type} (f : RecursiveFiller σ ε) (fence : σ)
    (maxHashes : Int) (fuel : Nat) (l1 l2 : List (List Char))
    (h1 : Fill f fence FillMode.contains maxHashes fuel = some (Except.ok l1))
    (h2 : Fill f fence FillMode.intersects maxHashes fuel = some (Except.ok l2)) :
    ∀ x ∈ l1, x ∈ l2 :=
  Fill_mode_mono f fence maxHashes fuel l1 l2 h1 h2

/-- C4 witness: on the always-contained polygon both modes succeed with the
root cell, and the inclusion instantiates to the root cell. -/
theorem c4_mode_superset_witness : ([] : List Char) ∈ ([[ ]] : List (List Char)) :=
  c4_mode_superset fillerTrue () 10 1 [[]] [[]] rfl rfl [] (by decide)

/-- C5: the fixed-precision expansion returns a max-precision cell
unchanged; for a shorter cell, when `32 ^ (maxPrecision - len)` fits under
the cap (and fuel covers the depth), it returns exactly the
`32 ^ (maxPrecision - len)` cells obtained by appending every symbol
sequence of that length, in depth-first alphabet order, each of length
exactly `maxPrecision` — and it consults no geometric predicate, being
defined on the precision alone. -/
theorem c5_extend_enum {ε : Type} (maxPrecision maxHashes : Int) (fuel : Nat)
    (hash : List Char) :
    ((hash.length : Int) = maxPrecision →
      extendHashToMaxPrecision (ε := ε) maxPrecision maxHashes (fuel + 1) hash =
        some (Except.ok [hash])) ∧
    ((hash.length : Int) < maxPrecision →
      (32 : Int) ^ (maxPrecision - (hash.length : Int)).toNat ≤ maxHashes →
      (maxPrecision - (hash.length : Int)).toNat < fuel + 1 →
      extendHashToMaxPrecision (ε := ε) maxPrecision maxHashes (fuel + 1) hash =
        some (Except.ok
          ((symbolSeqs (maxPrecision - (hash.length : Int)).toNat).map
            (fun s => hash ++ s))) ∧
      ((symbolSeqs (maxPrecision - (hash.length : Int)).toNat).map
          (fun s => hash ++ s)).length =
        32 ^ (maxPrecision - (hash.length : Int)).toNat ∧
      ∀ x ∈ (symbolSeqs (maxPrecision - (hash.length : Int)).toNat).map
          (fun s => hash ++ s), (x.length : Int) = maxPrecision) := by
  constructor
  · intro hmax
    rw [extendHashToMaxPrecision, if_pos hmax]
  · intro hlt hcap hfuel
    refine ⟨extendHashToMaxPrecision_enum maxPrecision maxHashes _ _ hash (by omega)
      hcap hfuel, ?_, ?_⟩
    · rw [List.length_map, symbolSeqs_length]
    · intro x hx
      obtain ⟨s, hs, rfl⟩ := List.mem_map.mp hx
      have := symbolSeqs_mem_length _ s hs
      simp only [List.length_append]
      push_cast
      omega

/-- C5 witness: a max-precision cell is returned unchanged, and the root
cell expands to the 32 precision-1 cells. -/
theorem c5_extend_enum_witness :
    extendHashToMaxPrecision (ε := Unit) 1 32 2 ['7'] = some (Except.ok [['7']]) ∧
    extendHashToMaxPrecision (ε := Unit) 1 32 2 [] =
      some (Except.ok ((symbolSeqs 1).map (fun s => [] ++ s))) :=
  ⟨(c5_extend_enum 1 32 1 ['7']).1 (by decide),
    ((c5_extend_enum 1 32 1 []).2 (by decide) (by decide) (by decide)).1⟩

/-- C6: every predicate error surfaced by `Fill` is exactly a value some
collaborator returned on some cell (propagated unchanged, with no result
list alongside — the `Except` result is all-or-nothing), and an error on
the root cell aborts the whole operation immediately with that error. -/
theorem c6_error_propagation {σ ε : Type} (f : RecursiveFiller σ ε) (fence : σ)
    (mode : FillMode) (maxHashes : Int) (fuel : Nat) :
    (∀ e : ε, Fill f fence mode maxHashes fuel =
        some (Except.error (HashfillError.pred e)) →
      ∃ cell, f.container fence cell = Except.error e ∨
        (f.container fence cell = Except.ok false ∧
          f.intersector fence cell = Except.error e)) ∧
    (∀ e : ε, f.container fence [] = Except.error e → 0 < fuel →
      Fill f fence mode maxHashes fuel = some (Except.error (HashfillError.pred e))) := by
  constructor
  · intro e h
    exact Fill_error_pred f fence mode maxHashes fuel e h
  · intro e hcont hfuel
    cases fuel with
    | zero => omega
    | succ s => rw [Fill, computeVariableHashes, hcont]

/-- C6 witness: with a container predicate that always fails with `()`,
`Fill` returns exactly that error, and the origin is recovered. -/
theorem c6_error_propagation_witness :
    Fill fillerErr () FillMode.contains 10 1 =
      some (Except.error (HashfillError.pred ())) ∧
    ∃ cell, fillerErr.container () cell = Except.error () ∨
      (fillerErr.container () cell = Except.ok false ∧
        fillerErr.intersector () cell = Except.error ()) :=
  ⟨(c6_error_propagation fillerErr () FillMode.contains 10 1).2 () rfl (by decide),
    (c6_error_propagation fillerErr () FillMode.contains 10 1).1 ()
      ((c6_error_propagation fillerErr () FillMode.contains 10 1).2 () rfl (by decide))⟩

/-- C7 (amended): a cell the search rejects (neither accepted nor
subdivided) fails the `Intersects` predicate, except — the amendment the
counterexample forces — a `Contains`-mode cell at maximum precision, which
is rejected although it straddles the boundary and intersects. -/
theorem c7_rejected_cells {σ ε : Type} (f : RecursiveFiller σ ε) (fence : σ)
    (mode : FillMode) (maxHashes : Int) (fuel : Nat) (hash : List Char)
    (l : List (List Char)) (tl : List (List Char × Decision)) (c : List Char)
    (h : tracedVariableHashes f fence mode maxHashes fuel hash = some (Except.ok (l, tl)))
    (hc : (c, Decision.rejected) ∈ tl) :
    f.intersector fence c = Except.ok false ∨
      (mode = FillMode.contains ∧ (c.length : Int) = f.maxPrecision ∧
        f.container fence c = Except.ok false ∧ f.intersector fence c = Except.ok true) :=
  tracedVariableHashes_rejected f fence mode maxHashes fuel hash l tl c h hc

/-- C7 counterexample: in `Contains` mode at maximum precision 0 the root
cell is rejected by the search even though `Intersects` holds on it. -/
theorem c7_counterexample :
    tracedVariableHashes fillerBoundary0 () FillMode.contains 5 1 [] =
      some (Except.ok ([], [([], Decision.rejected)])) ∧
    (([] : List Char), Decision.rejected) ∈ [(([] : List Char), Decision.rejected)] ∧
    fillerBoundary0.intersector () [] = Except.ok true ∧
    fillerBoundary0.intersector () [] ≠ Except.ok false :=
  ⟨rfl, by decide, rfl, by decide⟩

/-- C7 witness: the amended disjunction evaluated at the rejected root cell
of the boundary polygon at precision 0. -/
theorem c7_rejected_cells_witness :
    fillerBoundary0.intersector () [] = Except.ok false ∨
      (FillMode.contains = FillMode.contains ∧
        ((([] : List Char).length : Int) = fillerBoundary0.maxPrecision ∧
          fillerBoundary0.container () [] = Except.ok false ∧
          fillerBoundary0.intersector () [] = Except.ok true)) :=
  c7_rejected_cells fillerBoundary0 () FillMode.contains 5 1 [] []
    [([], Decision.rejected)] [] rfl (by decide)

/-- C8 (amended): the fixed-precision pre-check is dead logic for every
nonnegative `maxHashes` — there `Fill` equals the variant with the check
removed; for negative caps the check does fire (see the counterexample), so
the claim's inclusion of negative values fails. -/
theorem c8_precheck_dead {σ ε : Type} (f : RecursiveFiller σ ε) (fence : σ)
    (mode : FillMode) (maxHashes : Int) (fuel : Nat) (h : (0 : Int) ≤ maxHashes) :
    Fill f fence mode maxHashes fuel = FillNoPre f fence mode maxHashes fuel := by
  rw [Fill, FillNoPre]
  cases hres : computeVariableHashes f fence mode maxHashes fuel [] with
  | none => rfl
  | some r =>
    cases r with
    | error e => rfl
    | ok hashes =>
      simp only
      by_cases hfp : f.fixedPrecision = false
      · rw [if_pos hfp, if_pos hfp]
      · rw [if_neg hfp, if_neg hfp, if_neg (by omega : ¬ (0 : Int) > maxHashes)]

/-- C8 counterexample: with `maxHashes = -1` and an empty search result in
fixed-precision mode, the pre-check makes `Fill` fail while the variant
without it succeeds — the pre-check is not dead for negative caps. -/
theorem c8_counterexample :
    Fill fillerEmptyFixed () FillMode.intersects (-1) 2 =
      some (Except.error (HashfillError.hashLimit (-1) 0)) ∧
    FillNoPre fillerEmptyFixed () FillMode.intersects (-1) 2 = some (Except.ok []) ∧
    Fill fillerEmptyFixed () FillMode.intersects (-1) 2 ≠
      FillNoPre fillerEmptyFixed () FillMode.intersects (-1) 2 :=
  ⟨rfl, rfl, by decide⟩

/-- C8 witness: with cap 0 the two orchestrations agree on the
empty-polygon fixed-precision run. -/
theorem c8_precheck_dead_witness :
    Fill fillerEmptyFixed () FillMode.intersects 0 2 =
      FillNoPre fillerEmptyFixed () FillMode.intersects 0 2 :=
  c8_precheck_dead fillerEmptyFixed () FillMode.intersects 0 2 (by decide)

/-- C9: for a start cell within the precision bound, the search returns for
every polygon and all predicate behaviours once the fuel exceeds
`maxPrecision - len(c)`: recursion depth is bounded, each call appending
one symbol and no subdivision happening at maximum precision. -/
theorem c9_terminates {σ ε : Type} (f : RecursiveFiller σ ε) (fence : σ) (mode : FillMode)
    (maxHashes : Int) (fuel : Nat) (hash : List Char)
    (h1 : (hash.length : Int) ≤ f.maxPrecision)
    (h2 : (f.maxPrecision - (hash.length : Int)).toNat < fuel) :
    ∃ r, computeVariableHashes f fence mode maxHashes fuel hash = some r := by
  have hne := computeVariableHashes_isSome f fence mode maxHashes fuel hash h1 h2
  cases hres : computeVariableHashes f fence mode maxHashes fuel hash with
  | none => exact absurd hres hne
  | some r => exact ⟨r, rfl⟩

/-- C9 witness: termination evaluated on the boundary filler from the root
with fuel 2. -/
theorem c9_terminates_witness :
    ∃ r, computeVariableHashes fillerBoundary () FillMode.contains 5 2 [] = some r :=
  c9_terminates fillerBoundary () FillMode.contains 5 2 [] (by decide) (by decide)

/-- C10: if `Contains` holds on the root cell, the variable-precision
`Fill` succeeds with exactly that one cell for every cap value — zero and
negative included — because direct acceptance performs no cap comparison. -/
theorem c10_root_accepted {σ ε : Type} (f : RecursiveFiller σ ε) (fence : σ)
    (mode : FillMode) (maxHashes : Int) (fuel : Nat)
    (hfp : f.fixedPrecision = false)
    (hcont : f.container fence [] = Except.ok true)
    (hfuel : 0 < fuel) :
    Fill f fence mode maxHashes fuel = some (Except.ok [[]]) := by
  cases fuel with
  | zero => omega
  | succ s =>
    rw [Fill, computeVariableHashes, hcont]
    simp [hfp]

/-- C10 witness: with a negative cap the root-contained polygon still fills
to the single root cell. -/
theorem c10_root_accepted_witness :
    Fill fillerTrue () FillMode.intersects (-1) 1 = some (Except.ok [[]]) :=
  c10_root_accepted fillerTrue () FillMode.intersects (-1) 1 rfl rfl (by decide)
